import Mathlib

/-!
Verification of the doxdox dox-parser pipeline (`src/index.js`).

The file shallowly embeds the string normalizers, the linkable-object
index builder, the entity classifier and the collection assembler of the
parser, and proves or refutes the specification's claims about them.
Strings are modelled as Lean `String`s (lists of code points); the
JavaScript regex replacements are embedded as structurally recursive
scans over the character list, mirroring the left-to-right
leftmost-match semantics of `String.prototype.replace`.
-/

namespace Doxdox

/-- One `@tag` annotation of a parsed comment, as produced by dox. -/
structure Tag where
  type : String
  string : String
  name : String
  optional : Bool
  types : List String
  description : String
  deriving Repr, DecidableEq, Inhabited

/-- The code-construct context (`ctx`) attached to a parsed comment. -/
structure Ctx where
  type : String
  string : String
  deriving Repr, DecidableEq, Inhabited

/-- A parsed comment record (`method` in the source); `description` holds
`method.description.full`. -/
structure Method where
  description : String
  tags : List Tag
  ctx : Option Ctx
  isPrivate : Bool
  ignore : Bool
  line : Int
  deriving Repr, DecidableEq, Inhabited

/-! ## String normalizers -/

/-- One global replace pass of `/module\.exports\.|\.prototype|\(\)/gu` by the
empty string: scan left to right, at each position try the alternatives in
order, drop a match and resume after it. -/
def stripNameChars : List Char → List Char
  | 'm' :: 'o' :: 'd' :: 'u' :: 'l' :: 'e' :: '.' :: 'e' :: 'x' :: 'p' :: 'o' :: 'r' :: 't' :: 's' :: '.' :: rest =>
      stripNameChars rest
  | '.' :: 'p' :: 'r' :: 'o' :: 't' :: 'o' :: 't' :: 'y' :: 'p' :: 'e' :: rest =>
      stripNameChars rest
  | '(' :: ')' :: rest => stripNameChars rest
  | c :: cs => c :: stripNameChars cs
  | [] => []

/-- `formatStringForName` from the source: strip the module/prototype/parens
substrings, and prefix `{Function} ` when the type is `callback`. -/
def formatStringForName (content : String) (type : String) : String :=
  let name := String.mk (stripNameChars content.toList)
  if type == "callback" then "{Function} " ++ name else name

/-- The global replace of `/\[|\]/gu` by the empty string. -/
def stripBrackets (s : String) : String :=
  String.mk (s.toList.filter fun c => c ≠ '[' ∧ c ≠ ']')

/-- `formatStringForParam` from the source. -/
def formatStringForParam (content : String) : String :=
  stripBrackets content

/-- Decimal digit characters of a natural number, most significant first
(the rendering used by JavaScript number-to-string conversion). -/
def decDigits (n : Nat) : List Char :=
  if h : n < 10 then [Char.ofNat (48 + n)]
  else decDigits (n / 10) ++ [Char.ofNat (48 + n % 10)]
decreasing_by exact Nat.div_lt_self (by omega) (by omega)

/-- Does the plain escape character class (code points U+00A0 through
U+9999, plus `<`, `>`, `&`) match this character? The source regex
carries an `i` flag, whose ECMAScript canonicalization can additionally
match certain case-paired characters above U+9999 (for example U+AB70,
whose uppercase U+13A0 lies inside the range). Canonicalization never
changes membership at or below U+9999 — members match via themselves,
non-members below U+00A0 have no case partner inside the range, and no
uppercase mapping lands in U+0080–U+009F — so this embedding is exact for
code points up to U+9999 (and for lone-surrogate-encoded astral
characters, which also never match), and escaping facts are stated on
that domain. -/
def inEscapeClass (c : Char) : Bool :=
  (0xA0 ≤ c.toNat && c.toNat ≤ 0x9999) || c == '<' || c == '>' || c == '&'

/-- Replacement applied per matched character: the numeric character
reference built from the character code. -/
def escapeChar (c : Char) : List Char :=
  if inEscapeClass c then '&' :: '#' :: (decDigits c.toNat ++ [';']) else [c]

/-- The escaping branch of `formatStringWithLinkable`. Exact for strings
of characters up to U+9999 (see `inEscapeClass` on the `i` flag). -/
def escapeString (s : String) : String :=
  String.mk (s.toList.flatMap escapeChar)

/-- Every ampersand in the list immediately starts a character reference
(it is followed by a `#`) — the sense in which escaped output carries no
raw ampersand. -/
def ampsEscaped : List Char → Bool
  | [] => true
  | c :: rest =>
      if c = '&' then
        match rest with
        | d :: rest2 => if d = '#' then ampsEscaped rest2 else false
        | [] => false
      else ampsEscaped rest

/-- `formatStringWithLinkable` from the source: strip square brackets; if the
result is a key of the linkable-object index whose stored value is truthy
(a non-empty string), return a hyperlink to it, otherwise HTML-escape.
The index is an association list whose head holds the most recent
insertion, so `List.lookup` realizes the overwrite semantics of the
JavaScript object. -/
def formatStringWithLinkable (content : String) (linkableObjects : List (String × String)) : String :=
  let string := stripBrackets content
  match linkableObjects.lookup string with
  | some uid =>
      if uid ≠ "" then "<a href=\"#" ++ uid ++ "\">" ++ string ++ "</a>"
      else escapeString string
  | none => escapeString string

/-- Is the character kept by `/[^\w\.]+/gu` (an ASCII word character or a
period)? -/
def isWordDot (c : Char) : Bool :=
  c.isAlphanum || c == '_' || c == '.'

/-- One global replace pass of `/[^\w\.]+/gu` by `"-"`: every maximal run of
characters that are not word characters or periods becomes one hyphen. -/
def collapseRuns : List Char → List Char
  | [] => []
  | [c] => if isWordDot c then [c] else ['-']
  | c :: d :: rest =>
      if isWordDot c then c :: collapseRuns (d :: rest)
      else if isWordDot d then '-' :: collapseRuns (d :: rest)
      else collapseRuns (d :: rest)

/-- Drop one leading hyphen if present (the `^-` alternative of
`/^-|-$/gu`). -/
def dropLeadHyphen : List Char → List Char
  | [] => []
  | c :: rest => if c = '-' then rest else c :: rest

/-- Drop one trailing hyphen if present (the `-$` alternative of
`/^-|-$/gu`). -/
def dropTrailHyphen : List Char → List Char
  | [] => []
  | [c] => if c = '-' then [] else [c]
  | c :: d :: rest => c :: dropTrailHyphen (d :: rest)

/-- `formatStringForUID` from the source: lower-case, collapse runs of
non-word non-period characters to single hyphens, strip one leading and
one trailing hyphen. -/
def formatStringForUID (content : String) : String :=
  String.mk (dropTrailHyphen (dropLeadHyphen (collapseRuns (content.toList.map Char.toLower))))

/-- No two adjacent characters are both outside the kept character class —
the shape invariant of `collapseRuns` output used in the idempotence
proofs. -/
def noAdjacentNonword : List Char → Bool
  | c :: d :: rest => (isWordDot c || isWordDot d) && noAdjacentNonword (d :: rest)
  | _ => true

/-! ## Classifier helpers -/

/-- `isCallbackOrTypedef` from the source: the record has at least one tag
and its first tag is a `typedef` or a `callback`. -/
def isCallbackOrTypedef (method : Method) : Bool :=
  match method.tags.head? with
  | some t => t.type == "typedef" || t.type == "callback"
  | none => false

/-- One replace pass of `/^\x7b[a-z]*\x7d\ /i` by the empty string: drop a
leading brace-enclosed run of ASCII letters followed by one space. -/
def stripTypeMarker (l : List Char) : List Char :=
  match l with
  | '{' :: rest =>
      match rest.dropWhile Char.isAlpha with
      | '}' :: ' ' :: rest2 => rest2
      | _ => l
  | _ => l

/-- The display name under which a callback/typedef record is registered in
the linkable-object index. -/
def linkableName (t : Tag) : String :=
  String.mk (stripTypeMarker (formatStringForName t.string t.type).toList)

/-- The first pass of `parser`: fold over the (already `ignore`-filtered)
records, registering every callback/typedef under its display name. New
entries are consed to the front, so `List.lookup` sees the latest
insertion first — the overwrite semantics of `linkableObjects[name] = uid`. -/
def buildLinkableObjects (filename : String) (methods : List Method) : List (String × String) :=
  methods.foldl
    (fun idx method =>
      match method.tags.head? with
      | some t =>
          if t.type == "typedef" || t.type == "callback" then
            (linkableName t, formatStringForUID (filename ++ "-" ++ t.string)) :: idx
          else idx
      | none => idx)
    []

/-- The index entry contributed by one record in the first pass of
`parser`: the display-name/uid pair for a callback/typedef record, nothing
for any other record. -/
def entryOf (filename : String) (method : Method) : Option (String × String) :=
  match method.tags.head? with
  | some t =>
      if t.type == "typedef" || t.type == "callback" then
        some (linkableName t, formatStringForUID (filename ++ "-" ++ t.string))
      else none
  | none => none

/-- The replace of `'#'` (a string pattern, hence first occurrence only) by
the empty string in the memberof target. -/
def removeFirstHash : List Char → List Char
  | '#' :: rest => rest
  | c :: cs => c :: removeFirstHash cs
  | [] => []

/-- One global replace pass of `/\], \[/gu` by `", "`. -/
def collapseBracketBoundary : List Char → List Char
  | ']' :: ',' :: ' ' :: '[' :: rest => ',' :: ' ' :: collapseBracketBoundary rest
  | c :: cs => c :: collapseBracketBoundary cs
  | [] => []

/-- The replace of `', ['` (a string pattern, hence first occurrence only)
by `'[, '`. -/
def fixFirstCommaBracket : List Char → List Char
  | ',' :: ' ' :: '[' :: rest => '[' :: ',' :: ' ' :: rest
  | c :: cs => c :: fixFirstCommaBracket cs
  | [] => []

/-- The aggregated `params` display string of a record: non-dotted `param`
tags, bracket-wrapped when optional, joined with `", "`, then the two
cosmetic replaces. -/
def mkParamsString (tags : List Tag) : String :=
  let joined :=
    String.intercalate ", "
      ((tags.filter fun tag => tag.type == "param" && !(tag.name.toList.contains '.')).map
        fun tag =>
          if tag.optional then "[" ++ formatStringForParam tag.name ++ "]"
          else formatStringForParam tag.name)
  String.mk (fixFirstCommaBracket (collapseBracketBoundary joined.toList))

/-- A formatted `param`/`property` tag in the output. -/
structure ParamDoc where
  name : String
  isOptional : Bool
  types : List String
  description : String
  deriving Repr, DecidableEq, Inhabited

/-- A formatted `return` tag in the output. -/
structure ReturnDoc where
  types : List String
  description : String
  deriving Repr, DecidableEq, Inhabited

/-- One output record (the `params` object built inside `parser`). Fields
that a JavaScript branch may leave absent are `Option`s (for the string
fields) or default to `false` (for the flags, where only truthiness is
ever consulted). -/
structure Entity where
  isPrivate : Bool
  description : String
  empty : Bool
  line : Int
  params : String
  tagsExample : List String
  tagsParam : List ParamDoc
  tagsProperty : List ParamDoc
  tagsReturn : List ReturnDoc
  uid : Option String
  type : Option String
  name : Option String
  notFunction : Bool
  toBottom : Bool
  deriving Repr, DecidableEq, Inhabited

/-- The body of the `map` in `parser`: build the output record for one
parsed comment, resolving type strings against the linkable-object index.
For a record with neither `ctx` nor a qualifying first tag the source
assigns `method.empty = true` on the *input* record — the mapped-over dox
object, not the returned `params` object — so the returned record is
unchanged in that branch. -/
def buildEntity (filename : String) (linkableObjects : List (String × String)) (method : Method) : Entity :=
  let base : Entity :=
    { isPrivate := method.isPrivate
      description := method.description
      empty := method.description == "" && method.tags.length == 0
      line := method.line
      params := mkParamsString method.tags
      tagsExample := (method.tags.filter fun tag => tag.type == "example").map fun tag => tag.string
      tagsParam :=
        (method.tags.filter fun tag => tag.type == "param").map fun tag =>
          { name := formatStringForParam tag.name
            isOptional := tag.optional
            types := tag.types.map fun type => formatStringWithLinkable type linkableObjects
            description := tag.description }
      tagsProperty :=
        (method.tags.filter fun tag => tag.type == "property").map fun tag =>
          { name := formatStringForParam tag.name
            isOptional := tag.optional
            types := tag.types.map fun type => formatStringWithLinkable type linkableObjects
            description := tag.description }
      tagsReturn :=
        (method.tags.filter fun tag => tag.type == "return" || tag.type == "returns").map fun tag =>
          { types := tag.types.map fun type => formatStringWithLinkable type linkableObjects
            description := tag.description }
      uid := none
      type := none
      name := none
      notFunction := false
      toBottom := false }
  match method.ctx with
  | some ctx =>
      let name0 :=
        match method.tags.head? with
        | some t =>
            if t.type == "memberof" then
              String.mk (removeFirstHash t.string.toList) ++ "." ++ ctx.string
            else ctx.string
        | none => ctx.string
      { base with
          uid := some (formatStringForUID (filename ++ "-" ++ ctx.string))
          type := some ctx.type
          name := some (formatStringForName name0 "")
          notFunction := ctx.type == "declaration" }
  | none =>
      match method.tags.head? with
      | some t =>
          if t.type == "typedef" || t.type == "callback" then
            let withTd :=
              { base with
                  uid := some (formatStringForUID (filename ++ "-" ++ t.string))
                  type := some t.type
                  name := some (formatStringForName t.string t.type)
                  toBottom := true }
            if t.type == "typedef" then
              { withTd with notFunction := true, params := "" }
            else withTd
          else base
      | none => base

/-- Is the string `a` strictly greater than `b` in the lexicographic order
on characters (the JavaScript `>` on strings)? -/
def strGt (a b : String) : Bool :=
  decide (b < a)

/-- The sort comparator of `parser`, with the JavaScript boolean result of
`a.type > b.type` coerced to `1` or `0` as `Array.prototype.sort` does. -/
def sortCmp (a b : Entity) : Int :=
  if a.toBottom && b.toBottom then (if strGt (a.type.getD "") (b.type.getD "") then 1 else 0)
  else if a.toBottom then 1
  else if b.toBottom then -1
  else a.line - b.line

/-- "`a` need not come after `b`": the comparator is nonpositive. The sort
itself is embedded as a stable merge sort driven by this predicate. -/
def sortLe (a b : Entity) : Bool :=
  sortCmp a b ≤ 0

/-- The pipeline of `parser` up to the final `.sort`: drop ignored
records, build the linkable-object index over all remaining records, then
map every record to its output entity and drop the ones whose `empty`
field is set. -/
def preOutput (filename : String) (parsedComments : List Method) : List Entity :=
  let methods := parsedComments.filter fun method => !method.ignore
  let linkableObjects := buildLinkableObjects filename methods
  (methods.map (buildEntity filename linkableObjects)).filter
    fun method => !method.empty

/-- `parser` from the source, starting from the record sequence delivered
by the external comment parser: the filtered, mapped and `empty`-filtered
records, sorted with the comparator. The JavaScript `Array.prototype.sort`
is embedded as a stable merge sort driven by `sortLe` (the comparator
thresholded at zero), which is total and transitive here. -/
def parser (filename : String) (parsedComments : List Method) : List Entity :=
  (preOutput filename parsedComments).mergeSort sortLe

/-! ## Spec-side definitions used for comparison

`claimedParamsString` follows the words of claim C7 ("every comma
immediately followed by an opening bracket converted"), to be compared
with `mkParamsString`, which was translated from the source. -/

/-- Conversion of every `", ["` occurrence into `"[, "`, left to right,
non-overlapping — the all-occurrences reading of claim C7. -/
def fixAllCommaBrackets : List Char → List Char
  | ',' :: ' ' :: '[' :: rest => '[' :: ',' :: ' ' :: fixAllCommaBrackets rest
  | c :: cs => c :: fixAllCommaBrackets cs
  | [] => []

/-- The aggregated params string as claim C7 words it, with every
comma-bracket occurrence converted rather than only the first. -/
def claimedParamsString (tags : List Tag) : String :=
  let joined :=
    String.intercalate ", "
      ((tags.filter fun tag => tag.type == "param" && !(tag.name.toList.contains '.')).map
        fun tag =>
          if tag.optional then "[" ++ formatStringForParam tag.name ++ "]"
          else formatStringForParam tag.name)
  String.mk (fixAllCommaBrackets (collapseBracketBoundary joined.toList))

/-! ## Concrete records for examples and counterexamples -/

/-- A record with no `ctx`, no qualifying first tag, a non-empty
description and no tags. -/
def ctxlessRecord : Method :=
  { description := "hello", tags := [], ctx := none, isPrivate := false, ignore := false, line := 1 }

/-- The example record of the spec: a `method` context named `foo` with
one `param` tag. -/
def fooRecord : Method :=
  { description := "does X"
    tags := [{ type := "param", string := "", name := "a", optional := false, types := ["String"], description := "" }]
    ctx := some { type := "method", string := "foo" }
    isPrivate := false
    ignore := false
    line := 1 }

/-- A plain function-context record at a given source line. -/
def lineRec (n : Int) : Method :=
  { description := "d", tags := [], ctx := some { type := "function", string := "f" },
    isPrivate := false, ignore := false, line := n }

/-- The typedef tag of the spec's `Options` example. -/
def optionsTag : Tag :=
  { type := "typedef", string := "Options", name := "", optional := false, types := [], description := "" }

/-- The spec's example typedef record: first tag `typedef Options`, no ctx. -/
def optionsRecord : Method :=
  { description := "", tags := [optionsTag], ctx := none, isPrivate := false, ignore := false, line := 5 }

/-- The same typedef record, marked `ignore`. -/
def ignoredOptionsRecord : Method :=
  { description := "", tags := [optionsTag], ctx := none, isPrivate := false, ignore := true, line := 5 }

/-- A record with one param tag whose type references `Options`. -/
def refRecord : Method :=
  { description := "uses Options"
    tags := [{ type := "param", string := "", name := "opts", optional := false,
               types := ["Options"], description := "" }]
    ctx := some { type := "function", string := "run" }
    isPrivate := false
    ignore := false
    line := 2 }

/-- A required parameter tag with the given name. -/
def reqTag (n : String) : Tag :=
  { type := "param", string := "", name := n, optional := false, types := [], description := "" }

/-- An optional parameter tag with the given name. -/
def optTag (n : String) : Tag :=
  { type := "param", string := "", name := n, optional := true, types := [], description := "" }

/-! ## Character-level lemmas for the UID normalizer -/

/-- A valid code point round-trips through `Char.ofNat`. -/
theorem toNat_ofNat_valid (n : Nat) (h : n.isValidChar) : (Char.ofNat n).toNat = n := by
  simp only [Char.ofNat, h, dite_true, Char.ofNatAux, Char.toNat, UInt32.toNat]
  simp [BitVec.toNat_ofNatLt]

/-- Lowering a character twice is the same as lowering it once. -/
theorem toLower_toLower (c : Char) : Char.toLower (Char.toLower c) = Char.toLower c := by
  have key : ∀ d : Char, ¬(d.toNat ≥ 65 ∧ d.toNat ≤ 90) → Char.toLower d = d := by
    intro d hd
    simp only [Char.toLower]
    rw [if_neg hd]
  by_cases h : c.toNat ≥ 65 ∧ c.toNat ≤ 90
  · have h1 : Char.toLower c = Char.ofNat (c.toNat + 32) := by
      simp only [Char.toLower]
      rw [if_pos h]
    have hv : (c.toNat + 32).isValidChar := Or.inl (by omega)
    have ht : (Char.ofNat (c.toNat + 32)).toNat = c.toNat + 32 := toNat_ofNat_valid _ hv
    rw [h1]
    apply key
    rw [ht]
    omega
  · rw [key c h, key c h]

/-- Every character of the collapsed list is a kept character from the
input or the inserted hyphen. -/
theorem mem_collapseRuns : ∀ (l : List Char) (c : Char), c ∈ collapseRuns l →
    (isWordDot c = true ∧ c ∈ l) ∨ c = '-'
  | [], c, h => by simp [collapseRuns] at h
  | [d], c, h => by
      by_cases hw : isWordDot d = true
      · simp [collapseRuns, hw] at h
        exact Or.inl ⟨h ▸ hw, by simp [h]⟩
      · simp [collapseRuns, hw] at h
        exact Or.inr h
  | a :: b :: rest, c, h => by
      by_cases ha : isWordDot a = true
      · rw [show collapseRuns (a :: b :: rest) = a :: collapseRuns (b :: rest) from by
          simp [collapseRuns, ha]] at h
        rcases List.mem_cons.mp h with h | h
        · exact Or.inl ⟨h ▸ ha, by simp [h]⟩
        · rcases mem_collapseRuns (b :: rest) c h with ⟨hw, hm⟩ | hh
          · exact Or.inl ⟨hw, by simp [List.mem_cons] at hm ⊢; tauto⟩
          · exact Or.inr hh
      · by_cases hb : isWordDot b = true
        · rw [show collapseRuns (a :: b :: rest) = '-' :: collapseRuns (b :: rest) from by
            simp [collapseRuns, ha, hb]] at h
          rcases List.mem_cons.mp h with h | h
          · exact Or.inr h
          · rcases mem_collapseRuns (b :: rest) c h with ⟨hw, hm⟩ | hh
            · exact Or.inl ⟨hw, by simp [List.mem_cons] at hm ⊢; tauto⟩
            · exact Or.inr hh
        · rw [show collapseRuns (a :: b :: rest) = collapseRuns (b :: rest) from by
            simp [collapseRuns, ha, hb]] at h
          rcases mem_collapseRuns (b :: rest) c h with ⟨hw, hm⟩ | hh
          · exact Or.inl ⟨hw, by simp [List.mem_cons] at hm ⊢; tauto⟩
          · exact Or.inr hh

/-- Collapsing a list that starts with a kept character keeps that
character in front. -/
theorem collapseRuns_cons_word (a : Char) (rest : List Char) (h : isWordDot a = true) :
    collapseRuns (a :: rest) = a :: collapseRuns rest := by
  cases rest with
  | nil => simp [collapseRuns, h]
  | cons d t => simp [collapseRuns, h]

/-- Mapping a function that fixes every element of a list fixes the list. -/
theorem map_fix {f : Char → Char} : ∀ (l : List Char), (∀ c ∈ l, f c = c) → l.map f = l
  | [], _ => rfl
  | c :: t, h => by
      rw [List.map_cons, h c (by simp), map_fix t fun d hd => h d (by simp [hd])]

/-- The adjacency invariant survives dropping the head. -/
theorem noAdjacentNonword_tail {c : Char} {l : List Char}
    (h : noAdjacentNonword (c :: l) = true) : noAdjacentNonword l = true := by
  cases l with
  | nil => rfl
  | cons d t =>
      simp only [noAdjacentNonword, Bool.and_eq_true] at h
      exact h.2

/-- Prepending a kept character preserves the adjacency invariant. -/
theorem noAdjacentNonword_cons_word {a : Char} {l : List Char} (ha : isWordDot a = true)
    (h : noAdjacentNonword l = true) : noAdjacentNonword (a :: l) = true := by
  cases l with
  | nil => rfl
  | cons d t => simp [noAdjacentNonword, ha, h]

/-- The collapsed list never holds two adjacent non-kept characters. -/
theorem noAdj_collapseRuns : ∀ l, noAdjacentNonword (collapseRuns l) = true
  | [] => rfl
  | [c] => by by_cases hw : isWordDot c = true <;> simp [collapseRuns, hw, noAdjacentNonword]
  | a :: b :: rest => by
      by_cases ha : isWordDot a = true
      · rw [collapseRuns_cons_word a _ ha]
        exact noAdjacentNonword_cons_word ha (noAdj_collapseRuns (b :: rest))
      · by_cases hb : isWordDot b = true
        · rw [show collapseRuns (a :: b :: rest) = '-' :: collapseRuns (b :: rest) from by
            simp [collapseRuns, ha, hb]]
          rw [collapseRuns_cons_word b rest hb]
          have h2 : noAdjacentNonword (b :: collapseRuns rest) = true := by
            rw [← collapseRuns_cons_word b rest hb]
            exact noAdj_collapseRuns (b :: rest)
          simp only [noAdjacentNonword, Bool.and_eq_true, Bool.or_eq_true]
          exact ⟨Or.inr hb, h2⟩
        · rw [show collapseRuns (a :: b :: rest) = collapseRuns (b :: rest) from by
            simp [collapseRuns, ha, hb]]
          exact noAdj_collapseRuns (b :: rest)

/-- A list whose characters are all kept or hyphens, with no two adjacent
non-kept characters, is a fixed point of the collapse. -/
theorem collapseRuns_fixpoint : ∀ l, (∀ c ∈ l, isWordDot c = true ∨ c = '-') →
    noAdjacentNonword l = true → collapseRuns l = l
  | [], _, _ => rfl
  | [c], hall, _ => by
      rcases hall c (by simp) with hw | hh
      · simp [collapseRuns, hw]
      · subst hh
        simp [collapseRuns]
  | a :: b :: rest, hall, hadj => by
      have hbtail : noAdjacentNonword (b :: rest) = true := noAdjacentNonword_tail hadj
      have halltail : ∀ c ∈ b :: rest, isWordDot c = true ∨ c = '-' := fun c hc =>
        hall c (by simp [List.mem_cons] at hc ⊢; tauto)
      by_cases ha : isWordDot a = true
      · rw [collapseRuns_cons_word a _ ha, collapseRuns_fixpoint (b :: rest) halltail hbtail]
      · have ha2 : a = '-' := by
          rcases hall a (by simp) with h | h
          · exact absurd h ha
          · exact h
        have hb : isWordDot b = true := by
          simp only [noAdjacentNonword, Bool.and_eq_true, Bool.or_eq_true] at hadj
          rcases hadj.1 with h | h
          · exact absurd h ha
          · exact h
        rw [show collapseRuns (a :: b :: rest) = '-' :: collapseRuns (b :: rest) from by
          simp [collapseRuns, ha, hb]]
        rw [collapseRuns_fixpoint (b :: rest) halltail hbtail, ha2]

/-- Characters of the head-hyphen-stripped list come from the list. -/
theorem mem_dropLeadHyphen {c : Char} {l : List Char} (h : c ∈ dropLeadHyphen l) : c ∈ l := by
  cases l with
  | nil => simp [dropLeadHyphen] at h
  | cons d t =>
      by_cases hd : d = '-'
      · rw [show dropLeadHyphen (d :: t) = t from by simp [dropLeadHyphen, hd]] at h
        exact List.mem_cons_of_mem _ h
      · rwa [show dropLeadHyphen (d :: t) = d :: t from by simp [dropLeadHyphen, hd]] at h

/-- Characters of the tail-hyphen-stripped list come from the list. -/
theorem mem_dropTrailHyphen : ∀ (l : List Char) (c : Char), c ∈ dropTrailHyphen l → c ∈ l
  | [], c, h => by simp [dropTrailHyphen] at h
  | [d], c, h => by
      by_cases hd : d = '-'
      · simp [dropTrailHyphen, hd] at h
      · simp [dropTrailHyphen, hd] at h
        simp [h]
  | a :: b :: t, c, h => by
      rw [show dropTrailHyphen (a :: b :: t) = a :: dropTrailHyphen (b :: t) from rfl] at h
      rcases List.mem_cons.mp h with h | h
      · simp [h]
      · exact List.mem_cons_of_mem _ (mem_dropTrailHyphen (b :: t) c h)

/-- Stripping one trailing hyphen keeps the head or empties the list. -/
theorem dropTrail_cons_shape : ∀ (d : Char) (l : List Char),
    dropTrailHyphen (d :: l) = [] ∨ ∃ t, dropTrailHyphen (d :: l) = d :: t
  | d, [] => by
      by_cases hd : d = '-'
      · exact Or.inl (by simp [dropTrailHyphen, hd])
      · exact Or.inr ⟨[], by simp [dropTrailHyphen, hd]⟩
  | d, e :: t => Or.inr ⟨dropTrailHyphen (e :: t), rfl⟩

/-- When stripping one trailing hyphen empties a cons, the list was the
singleton hyphen. -/
theorem dropTrail_eq_nil : ∀ (d : Char) (l : List Char),
    dropTrailHyphen (d :: l) = [] → l = [] ∧ d = '-'
  | d, [], h => by
      by_cases hd : d = '-'
      · exact ⟨rfl, hd⟩
      · simp [dropTrailHyphen, hd] at h
  | d, e :: t, h => by
      rw [show dropTrailHyphen (d :: e :: t) = d :: dropTrailHyphen (e :: t) from rfl] at h
      simp at h

/-- The adjacency invariant survives stripping one trailing hyphen. -/
theorem noAdj_dropTrail : ∀ l, noAdjacentNonword l = true →
    noAdjacentNonword (dropTrailHyphen l) = true
  | [], _ => rfl
  | [c], _ => by by_cases hc : c = '-' <;> simp [dropTrailHyphen, hc, noAdjacentNonword]
  | a :: b :: t, h => by
      have htail : noAdjacentNonword (b :: t) = true := noAdjacentNonword_tail h
      have hpair : isWordDot a = true ∨ isWordDot b = true := by
        simp only [noAdjacentNonword, Bool.and_eq_true, Bool.or_eq_true] at h
        exact h.1
      rw [show dropTrailHyphen (a :: b :: t) = a :: dropTrailHyphen (b :: t) from rfl]
      rcases dropTrail_cons_shape b t with hsh | ⟨u, hsh⟩
      · rw [hsh]; rfl
      · rw [hsh]
        have hu : noAdjacentNonword (b :: u) = true := by
          rw [← hsh]
          exact noAdj_dropTrail (b :: t) htail
        simp only [noAdjacentNonword, Bool.and_eq_true, Bool.or_eq_true]
        exact ⟨hpair, hu⟩

/-- On lists satisfying the adjacency invariant, stripping one trailing
hyphen is idempotent. -/
theorem dropTrail_idem : ∀ l, noAdjacentNonword l = true →
    dropTrailHyphen (dropTrailHyphen l) = dropTrailHyphen l
  | [], _ => rfl
  | [c], _ => by by_cases hc : c = '-' <;> simp [dropTrailHyphen, hc]
  | a :: b :: t, h => by
      have htail : noAdjacentNonword (b :: t) = true := noAdjacentNonword_tail h
      rw [show dropTrailHyphen (a :: b :: t) = a :: dropTrailHyphen (b :: t) from rfl]
      rcases dropTrail_cons_shape b t with hsh | ⟨u, hsh⟩
      · rw [hsh]
        rcases dropTrail_eq_nil b t hsh with ⟨ht0, hb0⟩
        have haw : isWordDot a = true := by
          subst ht0; subst hb0
          simp only [noAdjacentNonword, Bool.and_eq_true, Bool.or_eq_true] at h
          rcases h.1 with h1 | h1
          · exact h1
          · exact absurd h1 (by decide)
        have ha : ¬(a = '-') := fun he => by rw [he] at haw; exact absurd haw (by decide)
        simp [dropTrailHyphen, ha]
      · rw [hsh]
        rw [show dropTrailHyphen (a :: b :: u) = a :: dropTrailHyphen (b :: u) from rfl]
        have := dropTrail_idem (b :: t) htail
        rw [hsh] at this
        rw [this]

/-- The adjacency invariant survives stripping one leading hyphen. -/
theorem noAdj_dropLead (l : List Char) (h : noAdjacentNonword l = true) :
    noAdjacentNonword (dropLeadHyphen l) = true := by
  cases l with
  | nil => rfl
  | cons c t =>
      by_cases hc : c = '-'
      · rw [show dropLeadHyphen (c :: t) = t from by simp [dropLeadHyphen, hc]]
        exact noAdjacentNonword_tail h
      · rwa [show dropLeadHyphen (c :: t) = c :: t from by simp [dropLeadHyphen, hc]]

/-- After stripping one leading hyphen from a collapsed-shape list, the
head (when present) is a kept character. -/
theorem head_word_dropLead (l : List Char) (hadj : noAdjacentNonword l = true)
    (hall : ∀ c ∈ l, isWordDot c = true ∨ c = '-') :
    dropLeadHyphen l = [] ∨ ∃ c t, dropLeadHyphen l = c :: t ∧ isWordDot c = true := by
  cases l with
  | nil => exact Or.inl rfl
  | cons c t =>
      by_cases hc : c = '-'
      · subst hc
        rw [show dropLeadHyphen ('-' :: t) = t from by simp [dropLeadHyphen]]
        cases t with
        | nil => exact Or.inl rfl
        | cons e u =>
            have he : isWordDot e = true := by
              simp only [noAdjacentNonword, Bool.and_eq_true, Bool.or_eq_true] at hadj
              rcases hadj.1 with h1 | h1
              · exact absurd h1 (by decide)
              · exact h1
            exact Or.inr ⟨e, u, rfl, he⟩
      · have hcw : isWordDot c = true := by
          rcases hall c (by simp) with h1 | h1
          · exact h1
          · exact absurd h1 hc
        rw [show dropLeadHyphen (c :: t) = c :: t from by simp [dropLeadHyphen, hc]]
        exact Or.inr ⟨c, t, rfl, hcw⟩

/-- The character list of a generated UID, unfolded. -/
theorem uidList_eq (s : String) : (formatStringForUID s).toList =
    dropTrailHyphen (dropLeadHyphen (collapseRuns (s.toList.map Char.toLower))) := rfl

/-- Every character of a generated UID is a lowered kept character or a
hyphen. -/
theorem uid_chars (s : String) (c : Char) (h : c ∈ (formatStringForUID s).toList) :
    (isWordDot c = true ∧ Char.toLower c = c) ∨ c = '-' := by
  rw [uidList_eq] at h
  have h1 := mem_dropLeadHyphen (mem_dropTrailHyphen _ c h)
  rcases mem_collapseRuns _ c h1 with ⟨hw, hm⟩ | hh
  · rcases List.mem_map.mp hm with ⟨a, _, ha⟩
    exact Or.inl ⟨hw, by rw [← ha, toLower_toLower]⟩
  · exact Or.inr hh

/-- A generated UID never holds two adjacent non-kept characters. -/
theorem uid_noAdj (s : String) : noAdjacentNonword ((formatStringForUID s).toList) = true := by
  rw [uidList_eq]
  exact noAdj_dropTrail _ (noAdj_dropLead _ (noAdj_collapseRuns _))

/-- A generated UID is empty or starts with a kept character. -/
theorem uid_head (s : String) : (formatStringForUID s).toList = [] ∨
    ∃ c t, (formatStringForUID s).toList = c :: t ∧ isWordDot c = true := by
  rw [uidList_eq]
  have hall : ∀ c ∈ collapseRuns (s.toList.map Char.toLower), isWordDot c = true ∨ c = '-' :=
    fun c hc => (mem_collapseRuns _ c hc).imp And.left id
  rcases head_word_dropLead _ (noAdj_collapseRuns _) hall with h | ⟨c, t, heq, hw⟩
  · rw [h]
    exact Or.inl rfl
  · rw [heq]
    rcases dropTrail_cons_shape c t with h2 | ⟨u, h2⟩
    · rw [h2]
      exact Or.inl rfl
    · rw [h2]
      exact Or.inr ⟨c, u, rfl, hw⟩

/-- After stripping, the last character (when present) of a
collapsed-shape list is not a hyphen. -/
theorem getLast_dropTrail : ∀ (l : List Char), noAdjacentNonword l = true →
    ∀ c, (dropTrailHyphen l).getLast? = some c → ¬(c = '-')
  | [], _, c, h => by simp [dropTrailHyphen] at h
  | [d], _, c, h => by
      by_cases hd : d = '-'
      · simp [dropTrailHyphen, hd] at h
      · simp [dropTrailHyphen, hd] at h
        rw [← h]
        exact hd
  | a :: b :: t, hadj, c, h => by
      rw [show dropTrailHyphen (a :: b :: t) = a :: dropTrailHyphen (b :: t) from rfl] at h
      rcases dropTrail_cons_shape b t with hsh | ⟨u, hsh⟩
      · rw [hsh] at h
        simp at h
        rcases dropTrail_eq_nil b t hsh with ⟨ht0, hb0⟩
        have haw : isWordDot a = true := by
          subst ht0; subst hb0
          simp only [noAdjacentNonword, Bool.and_eq_true, Bool.or_eq_true] at hadj
          rcases hadj.1 with h1 | h1
          · exact h1
          · exact absurd h1 (by decide)
        intro he
        rw [h, he] at haw
        exact absurd haw (by decide)
      · rw [hsh] at h
        rw [List.getLast?_cons_cons] at h
        rw [← hsh] at h
        exact getLast_dropTrail (b :: t) (noAdjacentNonword_tail hadj) c h

/-- A generated UID never ends in a hyphen. -/
theorem uid_getLast (s : String) (c : Char)
    (h : (formatStringForUID s).toList.getLast? = some c) : ¬(c = '-') := by
  rw [uidList_eq] at h
  exact getLast_dropTrail _ (noAdj_dropLead _ (noAdj_collapseRuns _)) c h

/-- The UID formatter is idempotent. -/
theorem formatStringForUID_idem (s : String) :
    formatStringForUID (formatStringForUID s) = formatStringForUID s := by
  set y := formatStringForUID s with hy
  have hmap : y.toList.map Char.toLower = y.toList := map_fix _ fun c hc => by
    rcases uid_chars s c hc with ⟨_, hl⟩ | hh
    · exact hl
    · rw [hh]
      decide
  have hall : ∀ c ∈ y.toList, isWordDot c = true ∨ c = '-' := fun c hc =>
    (uid_chars s c hc).imp And.left id
  have hcol : collapseRuns y.toList = y.toList :=
    collapseRuns_fixpoint _ hall (uid_noAdj s)
  have hlead : dropLeadHyphen y.toList = y.toList := by
    rcases uid_head s with h | ⟨c, t, heq, hw⟩
    · rw [h]
      rfl
    · rw [heq]
      have hne : ¬(c = '-') := fun he => by
        rw [he] at hw
        exact absurd hw (by decide)
      simp [dropLeadHyphen, hne]
  have htrail : dropTrailHyphen y.toList = y.toList := by
    rw [hy, uidList_eq]
    exact dropTrail_idem _ (noAdj_dropLead _ (noAdj_collapseRuns _))
  show String.mk (dropTrailHyphen (dropLeadHyphen (collapseRuns (y.toList.map Char.toLower)))) = y
  rw [hmap, hcol, hlead, htrail]
  rfl

/-- Filtering twice with the same predicate is filtering once. -/
theorem filter_self_idem (p : Char → Bool) : ∀ l : List Char, (l.filter p).filter p = l.filter p
  | [] => rfl
  | c :: t => by
      by_cases hc : p c = true
      · simp [List.filter_cons, hc, filter_self_idem p t]
      · simp [List.filter_cons, hc, filter_self_idem p t]

/-- The Param formatter (bracket stripping) is idempotent. -/
theorem formatStringForParam_idem (s : String) :
    formatStringForParam (formatStringForParam s) = formatStringForParam s := by
  unfold formatStringForParam stripBrackets
  rw [show ∀ l : List Char, (String.mk l).toList = l from fun l => rfl]
  rw [filter_self_idem]

/-! ## Lemmas on the linkable-object index -/

/-- The index-building fold, with an arbitrary accumulator, appends the
reversed entry list in front. -/
theorem buildLinkable_acc (f : String) (l : List Method) : ∀ idx : List (String × String),
    List.foldl
      (fun idx method =>
        match method.tags.head? with
        | some t =>
            if t.type == "typedef" || t.type == "callback" then
              (linkableName t, formatStringForUID (f ++ "-" ++ t.string)) :: idx
            else idx
        | none => idx)
      idx l = (l.filterMap (entryOf f)).reverse ++ idx := by
  induction l with
  | nil => intro idx; rfl
  | cons m l ih =>
      intro idx
      rw [List.foldl_cons, ih]
      cases hm : m.tags.head? with
      | none =>
          show (List.filterMap (entryOf f) l).reverse ++ idx =
            (List.filterMap (entryOf f) (m :: l)).reverse ++ idx
          rw [List.filterMap_cons]
          simp [entryOf, hm]
      | some t =>
          show (List.filterMap (entryOf f) l).reverse ++
              (if (t.type == "typedef" || t.type == "callback") = true then
                (linkableName t, formatStringForUID (f ++ "-" ++ t.string)) :: idx
              else idx) =
            (List.filterMap (entryOf f) (m :: l)).reverse ++ idx
          by_cases ht : (t.type == "typedef" || t.type == "callback") = true
          · rw [if_pos ht, List.filterMap_cons]
            simp [entryOf, hm, ht]
          · rw [if_neg ht, List.filterMap_cons]
            simp [entryOf, hm, ht]

/-- The linkable-object index is the reversed list of per-record entries. -/
theorem buildLinkable_eq (f : String) (l : List Method) :
    buildLinkableObjects f l = (l.filterMap (entryOf f)).reverse := by
  unfold buildLinkableObjects
  rw [buildLinkable_acc]
  simp

/-- A cons-step equation for assoc-list lookup with the key spelled as a
decidable equality test. -/
theorem lookup_cons_eq (n k v : String) (t : List (String × String)) :
    ((k, v) :: t).lookup n = if n = k then some v else t.lookup n := by
  rw [List.lookup_cons]
  by_cases hk : n = k
  · have : (n == k) = true := beq_iff_eq.mpr hk
    rw [this, if_pos hk]
  · have : (n == k) = false := beq_eq_false_iff_ne.mpr hk
    rw [this, if_neg hk]

/-- Lookup misses when no entry key matches. -/
theorem lookup_eq_none_of_keys (n : String) : ∀ idx : List (String × String),
    (∀ p ∈ idx, ¬(p.1 = n)) → idx.lookup n = none
  | [], _ => rfl
  | (k, v) :: t, h => by
      have hk : ¬(n = k) := fun he => (h (k, v) (by simp)) he.symm
      rw [lookup_cons_eq, if_neg hk]
      exact lookup_eq_none_of_keys n t fun p hp => h p (by simp [hp])

/-- Lookup walks past a miss-only prefix. -/
theorem lookup_append_of_none (n : String) : ∀ (A B : List (String × String)),
    A.lookup n = none → (A ++ B).lookup n = B.lookup n
  | [], B, _ => rfl
  | (k, v) :: t, B, h => by
      rw [lookup_cons_eq] at h
      by_cases hk : n = k
      · rw [if_pos hk] at h
        simp at h
      · rw [if_neg hk] at h
        rw [List.cons_append, lookup_cons_eq, if_neg hk]
        exact lookup_append_of_none n t B h

/-- Lookup stops inside a prefix that already holds the key. -/
theorem lookup_append_of_some (n : String) (v : String) : ∀ (A B : List (String × String)),
    A.lookup n = some v → (A ++ B).lookup n = some v
  | [], B, h => by simp at h
  | (k, w) :: t, B, h => by
      rw [lookup_cons_eq] at h
      by_cases hk : n = k
      · rw [if_pos hk] at h
        rw [List.cons_append, lookup_cons_eq, if_pos hk]
        exact h
      · rw [if_neg hk] at h
        rw [List.cons_append, lookup_cons_eq, if_neg hk]
        exact lookup_append_of_some n v t B h

/-- Lookup through a common prefix only depends on the suffix lookups. -/
theorem lookup_append_congr (n : String) (X Y : List (String × String))
    (h : X.lookup n = Y.lookup n) :
    ∀ A : List (String × String), (A ++ X).lookup n = (A ++ Y).lookup n
  | [] => h
  | (k, v) :: t => by
      rw [List.cons_append, List.cons_append, lookup_cons_eq, lookup_cons_eq]
      by_cases hk : n = k
      · rw [if_pos hk, if_pos hk]
      · rw [if_neg hk, if_neg hk]
        exact lookup_append_congr n X Y h t

/-- Moving an entry from the front to the back of an index does not change
any lookup, provided no other entry shadows its key. -/
theorem lookup_move_entry (e : String × String) (C : List (String × String))
    (hkeys : ∀ p ∈ C, ¬(p.1 = e.1)) (t : String) :
    (e :: C).lookup t = (C ++ [e]).lookup t := by
  by_cases ht : t = e.1
  · have h1 : (e :: C).lookup t = some e.2 := by
      rw [show (e :: C) = (e.1, e.2) :: C from rfl, lookup_cons_eq, if_pos ht]
    have hC : C.lookup t = none :=
      lookup_eq_none_of_keys t C fun p hp he => hkeys p hp (he.trans ht)
    rw [h1, lookup_append_of_none t C [e] hC]
    rw [show ([e] : List (String × String)) = [(e.1, e.2)] from rfl, lookup_cons_eq, if_pos ht]
  · have h1 : (e :: C).lookup t = C.lookup t := by
      rw [show (e :: C) = (e.1, e.2) :: C from rfl, lookup_cons_eq, if_neg ht]
    rw [h1]
    cases hc : C.lookup t with
    | some v => rw [lookup_append_of_some t v C [e] hc]
    | none =>
        rw [lookup_append_of_none t C [e] hc]
        rw [show ([e] : List (String × String)) = [(e.1, e.2)] from rfl, lookup_cons_eq, if_neg ht]
        rfl

/-- Lookup succeeds on any list that holds an entry for the key. -/
theorem lookup_mem_isSome (n v : String) : ∀ (A B : List (String × String)),
    ((A ++ (n, v) :: B).lookup n).isSome = true
  | [], B => by
      rw [List.nil_append, lookup_cons_eq, if_pos rfl]
      rfl
  | (k, w) :: t, B => by
      rw [List.cons_append, lookup_cons_eq]
      by_cases hk : n = k
      · rw [if_pos hk]
        rfl
      · rw [if_neg hk]
        exact lookup_mem_isSome n v t B

/-- The Link formatter only consults the index through lookups. -/
theorem formatStringWithLinkable_congr (content : String) (idx₁ idx₂ : List (String × String))
    (h : ∀ s, idx₁.lookup s = idx₂.lookup s) :
    formatStringWithLinkable content idx₁ = formatStringWithLinkable content idx₂ := by
  simp only [formatStringWithLinkable]
  rw [h (stripBrackets content)]

/-- The classifier only consults the index through lookups. -/
theorem buildEntity_congr (f : String) (idx₁ idx₂ : List (String × String))
    (h : ∀ s, idx₁.lookup s = idx₂.lookup s) (m : Method) :
    buildEntity f idx₁ m = buildEntity f idx₂ m := by
  have hfmt : (fun type => formatStringWithLinkable type idx₁) =
      fun type => formatStringWithLinkable type idx₂ :=
    funext fun t => formatStringWithLinkable_congr t idx₁ idx₂ h
  unfold buildEntity
  rw [hfmt]

/-! ## Lemmas on the escaping branch -/

/-- Decimal rendering produces only digit characters. -/
theorem decDigits_digits (n : Nat) : ∀ c ∈ decDigits n, 48 ≤ c.toNat ∧ c.toNat ≤ 57 := by
  induction n using Nat.strong_induction_on with
  | _ n ih =>
      intro c hc
      rw [decDigits] at hc
      by_cases h : n < 10
      · rw [dif_pos h] at hc
        rw [List.mem_singleton] at hc
        subst hc
        rw [toNat_ofNat_valid (48 + n) (Or.inl (by omega))]
        omega
      · rw [dif_neg h] at hc
        rcases List.mem_append.mp hc with hc | hc
        · exact ih (n / 10) (Nat.div_lt_self (by omega) (by omega)) c hc
        · rw [List.mem_singleton] at hc
          subst hc
          rw [toNat_ofNat_valid (48 + n % 10) (Or.inl (by omega))]
          omega

/-- The per-character escape output never holds a raw angle bracket. -/
theorem escapeChar_no_markup (c : Char) :
    ¬('<' ∈ escapeChar c) ∧ ¬('>' ∈ escapeChar c) := by
  by_cases h : inEscapeClass c = true
  · rw [show escapeChar c = '&' :: '#' :: (decDigits c.toNat ++ [';']) from by
      simp [escapeChar, h]]
    constructor
    all_goals
      intro hmem
      simp only [List.mem_cons, List.mem_append, List.mem_singleton] at hmem
      rcases hmem with h1 | h1 | h1 | h1
      all_goals
        first
          | exact absurd h1 (by decide)
          | · have := decDigits_digits c.toNat _ h1
              revert this
              decide
  · rw [show escapeChar c = [c] from by simp [escapeChar, h]]
    simp only [inEscapeClass, Bool.or_eq_true, Bool.not_eq_true, Bool.or_eq_false_iff] at h
    constructor
    all_goals
      intro hmem
      rw [List.mem_singleton] at hmem
      subst hmem
      simp at h

/-- Escaped output never holds a raw angle bracket. -/
theorem escape_no_angle (l : List Char) :
    ¬('<' ∈ l.flatMap escapeChar) ∧ ¬('>' ∈ l.flatMap escapeChar) := by
  constructor <;>
    · intro hmem
      rcases List.mem_flatMap.mp hmem with ⟨c, _, hc⟩
      first
        | exact (escapeChar_no_markup c).1 hc
        | exact (escapeChar_no_markup c).2 hc

/-- Skipping a non-ampersand head preserves the reference invariant. -/
theorem ampsEscaped_cons_ne (c : Char) (h : ¬(c = '&')) (l : List Char) :
    ampsEscaped (c :: l) = ampsEscaped l := by
  cases l with
  | nil => simp [ampsEscaped, h]
  | cons d t => simp [ampsEscaped, h]

/-- A segment without ampersands can be dropped in front. -/
theorem ampsEscaped_append_no_amp : ∀ (A : List Char), (∀ c ∈ A, ¬(c = '&')) →
    ∀ B, ampsEscaped (A ++ B) = ampsEscaped B
  | [], _, B => rfl
  | c :: t, h, B => by
      rw [List.cons_append, ampsEscaped_cons_ne c (h c (by simp))]
      exact ampsEscaped_append_no_amp t (fun d hd => h d (by simp [hd])) B

/-- Escaped output keeps every ampersand at the head of a character
reference. -/
theorem ampsEscaped_flatMap : ∀ l : List Char, ampsEscaped (l.flatMap escapeChar) = true
  | [] => rfl
  | c :: t => by
      rw [List.flatMap_cons]
      by_cases h : inEscapeClass c = true
      · rw [show escapeChar c = '&' :: '#' :: (decDigits c.toNat ++ [';']) from by
          simp [escapeChar, h]]
        rw [List.cons_append, List.cons_append]
        rw [show ampsEscaped ('&' :: '#' :: ((decDigits c.toNat ++ [';']) ++
            t.flatMap escapeChar)) = ampsEscaped ((decDigits c.toNat ++ [';']) ++
            t.flatMap escapeChar) from by simp [ampsEscaped]]
        rw [List.append_assoc]
        rw [ampsEscaped_append_no_amp (decDigits c.toNat) (fun d hd he => by
          have := decDigits_digits c.toNat d hd
          rw [he] at this
          revert this
          decide)]
        rw [show ((([';'] : List Char)) ++ t.flatMap escapeChar) =
          ';' :: t.flatMap escapeChar from rfl]
        rw [ampsEscaped_cons_ne ';' (by decide)]
        exact ampsEscaped_flatMap t
      · have hno : ¬(c = '&') := by
          intro he
          subst he
          simp [inEscapeClass] at h
        rw [show escapeChar c = [c] from by simp [escapeChar, h]]
        rw [List.singleton_append, ampsEscaped_cons_ne c hno]
        exact ampsEscaped_flatMap t

/-- The escape character class, spelled as the proposition of the spec. -/
theorem inEscapeClass_iff (c : Char) : inEscapeClass c = true ↔
    (0xA0 ≤ c.toNat ∧ c.toNat ≤ 0x9999) ∨ c = '<' ∨ c = '>' ∨ c = '&' := by
  unfold inEscapeClass
  simp only [Bool.or_eq_true, Bool.and_eq_true, decide_eq_true_eq, beq_iff_eq]
  tauto

/-- Dropping the dotted-name tags beforehand does not change the
aggregated params string: dotted names never reach it. -/
theorem mkParamsString_ignores_dotted (tags : List Tag) :
    mkParamsString (tags.filter fun t => !(t.name.toList.contains '.')) =
      mkParamsString tags := by
  unfold mkParamsString
  have hff : (tags.filter fun t => !(t.name.toList.contains '.')).filter
      (fun tag => tag.type == "param" && !(tag.name.toList.contains '.')) =
      tags.filter fun tag => tag.type == "param" && !(tag.name.toList.contains '.') := by
    rw [List.filter_filter]
    apply List.filter_congr
    intro t ht
    cases hd : t.name.toList.contains '.' <;> simp [hd]
  rw [hff]

/-- No classifier branch touches the `param` tag group. -/
theorem tagsParam_eq (f : String) (idx : List (String × String)) (m : Method) :
    (buildEntity f idx m).tagsParam =
      (m.tags.filter fun tag => tag.type == "param").map fun tag =>
        { name := formatStringForParam tag.name
          isOptional := tag.optional
          types := tag.types.map fun type => formatStringWithLinkable type idx
          description := tag.description } := by
  unfold buildEntity
  cases m.ctx with
  | some c => rfl
  | none =>
      cases m.tags.head? with
      | none => rfl
      | some tg =>
          dsimp only
          split
          · split <;> rfl
          · rfl

/-- The `param` tag group of an entity keeps every `param` tag, dotted
names included, in every classifier branch. -/
theorem tagsParam_full_group (f : String) (idx : List (String × String)) (m : Method) :
    (buildEntity f idx m).tagsParam.map (fun p => p.name) =
      (m.tags.filter fun t => t.type == "param").map fun t => formatStringForParam t.name := by
  rw [tagsParam_eq, List.map_map]
  rfl

/-! ## Claim theorems -/

/-- C1: contrary to the claim, a record with no `ctx` and no qualifying
first tag but a non-empty description survives to the final output. The
source does execute `method.empty = true` for such a record, but the
assignment targets the mapped-over input record instead of the returned
output record, so the emptiness filter never sees it. -/
theorem c1_ctxless_record_survives :
    (parser "f.js" [ctxlessRecord]).map (fun e => e.description) = ["hello"] ∧
      (parser "f.js" [ctxlessRecord]).length = 1 := by
  have hp : parser "f.js" [ctxlessRecord] = [buildEntity "f.js" [] ctxlessRecord] := by
    unfold parser
    rw [show preOutput "f.js" [ctxlessRecord] = [buildEntity "f.js" [] ctxlessRecord] from rfl]
    simp [List.mergeSort]
  rw [hp]
  constructor
  · decide
  · decide

/-- C2 counterexample: on the spec's own example record the generated uid
is `"lib.js-foo"`, not `"lib-js-foo"`: the slug keeps periods, because the
character class of the collapse regex exempts `.` alongside word
characters. -/
theorem c2_uid_keeps_periods :
    (parser "lib.js" [fooRecord]).map (fun e => e.uid) = [some "lib.js-foo"] ∧
      (parser "lib.js" [fooRecord]).map (fun e => e.uid) ≠ [some "lib-js-foo"] := by
  have hp : parser "lib.js" [fooRecord] = [buildEntity "lib.js" [] fooRecord] := by
    unfold parser
    rw [show preOutput "lib.js" [fooRecord] = [buildEntity "lib.js" [] fooRecord] from rfl]
    simp [List.mergeSort]
  rw [hp]
  constructor
  · decide
  · decide

/-- C3 counterexample: a linkable-object index can hold a key whose stored
identifier is the empty string (a falsy value), and then the formatter
takes the escaping branch even though the bracket-stripped string is
present as a key — so "hyperlink if and only if present as a key" fails. -/
theorem c3_present_key_not_linked :
    ([("X", "")] : List (String × String)).lookup "X" = some "" ∧
      formatStringWithLinkable "X" [("X", "")] = escapeString "X" ∧
      formatStringWithLinkable "X" [("X", "")] = "X" ∧
      formatStringWithLinkable "X" [("X", "")] ≠ "<a href=\"#\">X</a>" := by
  refine ⟨by decide, by decide, by decide, by decide⟩

/-- C7 counterexample: with parameters `a, [b], c, [d]` the source
converts only the first `", ["` occurrence (a string-pattern replace),
yielding `"a[, b], c, [d]"`, while the claim's every-occurrence reading
yields `"a[, b], c[, d]"`. -/
theorem c7_only_first_comma_bracket_converted :
    mkParamsString [reqTag "a", optTag "b", reqTag "c", optTag "d"] = "a[, b], c, [d]" ∧
      claimedParamsString [reqTag "a", optTag "b", reqTag "c", optTag "d"] = "a[, b], c[, d]" ∧
      mkParamsString [reqTag "a", optTag "b", reqTag "c", optTag "d"] ≠
        claimedParamsString [reqTag "a", optTag "b", reqTag "c", optTag "d"] := by
  refine ⟨by decide, by decide, by decide⟩

/-- C9 counterexample: the character U+0080 is not ASCII, yet the escaping
branch leaves it untouched — the character class starts at U+00A0, so no
numeric character reference is produced for it. -/
theorem c9_c1_control_not_escaped :
    formatStringWithLinkable (String.mk [Char.ofNat 0x80]) [] = String.mk [Char.ofNat 0x80] ∧
      0x7F < (Char.ofNat 0x80).toNat ∧
      ((formatStringWithLinkable (String.mk [Char.ofNat 0x80]) []).toList.all
        fun ch => ch != '&') = true := by
  refine ⟨by decide, by decide, by decide⟩

/-- The sort predicate is total. -/
theorem sortLe_total (a b : Entity) : (sortLe a b || sortLe b a) = true := by
  simp only [sortLe, Bool.or_eq_true, decide_eq_true_eq]
  unfold sortCmp
  cases ha : a.toBottom <;> cases hb : b.toBottom <;> simp [ha, hb]
  · omega
  · by_cases hg : strGt (a.type.getD "") (b.type.getD "") = true
    · right
      have hko : strGt (b.type.getD "") (a.type.getD "") = false := by
        simp only [strGt, decide_eq_true_eq] at hg
        simp only [strGt, decide_eq_false_iff_not]
        exact fun hlt => absurd hg (lt_asymm hlt)
      simp [hko]
    · left
      simp [Bool.not_eq_true] at hg
      simp [hg]

/-- The sort predicate is transitive. -/
theorem sortLe_trans : ∀ (x y z : Entity), sortLe x y → sortLe y z → sortLe x z := by
  intro x y z h1 h2
  simp only [sortLe, decide_eq_true_eq] at h1 h2 ⊢
  unfold sortCmp at h1 h2 ⊢
  cases hx : x.toBottom <;> cases hy : y.toBottom <;> cases hz : z.toBottom <;>
      simp [hx, hy, hz] at h1 h2 ⊢
  · omega
  · by_cases g1 : strGt (x.type.getD "") (y.type.getD "") = true
    · simp [g1] at h1
    · by_cases g2 : strGt (y.type.getD "") (z.type.getD "") = true
      · simp [g2] at h2
      · simp only [strGt, decide_eq_true_eq, Bool.not_eq_true, decide_eq_false_iff_not] at g1 g2
        have hxz : ¬((z.type.getD "") < (x.type.getD "")) := fun hlt =>
          g2 (lt_of_lt_of_le hlt (not_lt.mp g1))
        have : strGt (x.type.getD "") (z.type.getD "") = false := by
          simp only [strGt, decide_eq_false_iff_not]
          exact hxz
        simp [this]

/-- Ordered pairs in the sorted output satisfy the placement claim. -/
theorem sortLe_imp (a b : Entity) (h : sortLe a b = true) :
    (a.toBottom = true → b.toBottom = true) ∧
      (a.toBottom = false → b.toBottom = false → a.line ≤ b.line) := by
  simp only [sortLe, decide_eq_true_eq] at h
  unfold sortCmp at h
  cases ha : a.toBottom <;> cases hb : b.toBottom <;> simp [ha, hb] at h ⊢
  · omega

/-- C4: in the parser's final output, every `toBottom` entity comes after
every non-`toBottom` entity, and non-`toBottom` entities are in ascending
line order; in particular three plain records at lines 10, 3, 7 come out
ordered 3, 7, 10. -/
theorem c4_sorted_output :
    (∀ (filename : String) (ms : List Method),
      (parser filename ms).Pairwise fun a b =>
        (a.toBottom = true → b.toBottom = true) ∧
          (a.toBottom = false → b.toBottom = false → a.line ≤ b.line)) ∧
      (parser "f.js" [lineRec 10, lineRec 3, lineRec 7]).map (fun e => e.line) = [3, 7, 10] := by
  constructor
  · intro filename ms
    have hs := List.sorted_mergeSort sortLe_trans sortLe_total (preOutput filename ms)
    exact List.Pairwise.imp (fun h => sortLe_imp _ _ h) hs
  · rw [show parser "f.js" [lineRec 10, lineRec 3, lineRec 7] =
        List.mergeSort
          [buildEntity "f.js" [] (lineRec 10), buildEntity "f.js" [] (lineRec 3),
            buildEntity "f.js" [] (lineRec 7)] sortLe from rfl]
    simp +decide [List.mergeSort, List.splitInTwo, List.splitAt, List.splitAt.go, List.merge]

/-- C8 counterexample: the Name formatter is not idempotent. With the
default kind, stripping `()` from `"(())"` yields `"()"`, which a second
application strips to `""`; with kind `callback` a second application
stacks another `{Function} ` prefix. -/
theorem c8_name_formatter_not_idempotent :
    formatStringForName "(())" "" = "()" ∧
      formatStringForName (formatStringForName "(())" "") "" = "" ∧
      formatStringForName (formatStringForName "(())" "") "" ≠ formatStringForName "(())" "" ∧
      formatStringForName (formatStringForName "cb" "callback") "callback" =
        "{Function} {Function} cb" ∧
      formatStringForName (formatStringForName "cb" "callback") "callback" ≠
        formatStringForName "cb" "callback" := by
  refine ⟨by decide, by decide, by decide, by decide, by decide⟩

/-- C8 (amended): the Param and UID formatters are idempotent — applying
either twice yields the same string as applying it once, for every input —
but the Name formatter is not (see the counterexample). -/
theorem c8_param_uid_idempotent :
    (∀ s : String, formatStringForParam (formatStringForParam s) = formatStringForParam s) ∧
      ∀ s : String, formatStringForUID (formatStringForUID s) = formatStringForUID s :=
  ⟨formatStringForParam_idem, formatStringForUID_idem⟩

/-- C5: the linkable-object index is completed over the whole filtered
batch before any entity is built (`parser` passes `buildLinkableObjects`
of the full batch to every `buildEntity` call), so where a
callback/typedef declaration sits relative to the records referencing it
is irrelevant: declaring `d` in the middle or in front yields the same
lookup for every name, and hence the identical entity for every record —
provided no record of the preceding segment registers the same display
name (overwrite order is the one thing position changes). -/
theorem c5_declaration_position_irrelevant (f : String) (l₁ l₂ : List Method) (d : Method)
    (hkey : ∀ m ∈ l₁, ∀ p q, entryOf f m = some p → entryOf f d = some q → ¬(p.1 = q.1)) :
    (∀ t, (buildLinkableObjects f ((l₁ ++ d :: l₂).filter fun x => !x.ignore)).lookup t =
        (buildLinkableObjects f ((d :: (l₁ ++ l₂)).filter fun x => !x.ignore)).lookup t) ∧
      ∀ m, buildEntity f (buildLinkableObjects f ((l₁ ++ d :: l₂).filter fun x => !x.ignore)) m =
        buildEntity f (buildLinkableObjects f ((d :: (l₁ ++ l₂)).filter fun x => !x.ignore)) m := by
  have hlook : ∀ t,
      (buildLinkableObjects f ((l₁ ++ d :: l₂).filter fun x => !x.ignore)).lookup t =
        (buildLinkableObjects f ((d :: (l₁ ++ l₂)).filter fun x => !x.ignore)).lookup t := by
    intro t
    rw [buildLinkable_eq, buildLinkable_eq]
    by_cases hig : (!d.ignore) = true
    · rw [show (l₁ ++ d :: l₂).filter (fun x => !x.ignore) =
          l₁.filter (fun x => !x.ignore) ++ d :: l₂.filter (fun x => !x.ignore) from by
        rw [List.filter_append, List.filter_cons, if_pos hig]]
      rw [show (d :: (l₁ ++ l₂)).filter (fun x => !x.ignore) =
          d :: (l₁.filter (fun x => !x.ignore) ++ l₂.filter (fun x => !x.ignore)) from by
        rw [List.filter_cons, if_pos hig, List.filter_append]]
      cases he : entryOf f d with
      | none =>
          rw [List.filterMap_append, List.filterMap_cons, he, List.filterMap_cons, he,
            List.filterMap_append]
      | some e =>
          rw [List.filterMap_append, List.filterMap_cons, he, List.filterMap_cons, he,
            List.filterMap_append]
          rw [List.reverse_append, List.reverse_cons, List.reverse_cons, List.reverse_append]
          rw [List.append_assoc, List.append_assoc]
          apply lookup_append_congr
          have hkeys : ∀ p ∈ (List.filterMap (entryOf f)
              (l₁.filter fun x => !x.ignore)).reverse, ¬(p.1 = e.1) := by
            intro p hp
            rw [List.mem_reverse] at hp
            rcases List.mem_filterMap.mp hp with ⟨m, hm, hme⟩
            exact hkey m (List.mem_filter.mp hm).1 p e hme he
          have := lookup_move_entry e
            ((List.filterMap (entryOf f) (l₁.filter fun x => !x.ignore)).reverse) hkeys t
          simpa using this
    · rw [show (l₁ ++ d :: l₂).filter (fun x => !x.ignore) =
          l₁.filter (fun x => !x.ignore) ++ l₂.filter (fun x => !x.ignore) from by
        rw [List.filter_append, List.filter_cons, if_neg hig]]
      rw [show (d :: (l₁ ++ l₂)).filter (fun x => !x.ignore) =
          l₁.filter (fun x => !x.ignore) ++ l₂.filter (fun x => !x.ignore) from by
        rw [List.filter_cons, if_neg hig, List.filter_append]]
  exact ⟨hlook, fun m => buildEntity_congr f _ _ hlook m⟩

/-- C5 witness: with the `Options` typedef declared after a referencing
record or in front of it, the lookup of `"Options"` and the entity built
for the referencing record are identical. -/
theorem c5_witness :
    (buildLinkableObjects "lib.js" (([refRecord] ++ optionsRecord :: []).filter
        fun x => !x.ignore)).lookup "Options" =
      (buildLinkableObjects "lib.js" ((optionsRecord :: ([refRecord] ++ [])).filter
        fun x => !x.ignore)).lookup "Options" ∧
    buildEntity "lib.js" (buildLinkableObjects "lib.js" (([refRecord] ++ optionsRecord :: []).filter
        fun x => !x.ignore)) refRecord =
      buildEntity "lib.js" (buildLinkableObjects "lib.js"
        ((optionsRecord :: ([refRecord] ++ [])).filter fun x => !x.ignore)) refRecord := by
  have hkey : ∀ m ∈ [refRecord], ∀ p q, entryOf "lib.js" m = some p →
      entryOf "lib.js" optionsRecord = some q → ¬(p.1 = q.1) := by
    intro m hm p q hp hq
    rw [List.mem_singleton] at hm
    subst hm
    rw [show entryOf "lib.js" refRecord = none from rfl] at hp
    exact absurd hp (by simp)
  exact ⟨(c5_declaration_position_irrelevant "lib.js" [refRecord] [] optionsRecord hkey).1 "Options",
    (c5_declaration_position_irrelevant "lib.js" [refRecord] [] optionsRecord hkey).2 refRecord⟩

/-- C6: a record with no ctx whose first tag is a typedef yields an entity
with `notFunction`, `toBottom`, type `typedef`, a forcibly empty `params`
string (whatever the index and the other tags), and its display name is a
key of the linkable-object index built over any batch holding the record —
the index `parser` completes before it resolves any record's types. -/
theorem c6_typedef_entity (f : String) (idx : List (String × String)) (m : Method) (tg : Tag)
    (l₁ l₂ : List Method)
    (hctx : m.ctx = none) (htag : m.tags.head? = some tg) (hty : tg.type = "typedef")
    (hig : (!m.ignore) = true) :
    (buildEntity f idx m).notFunction = true ∧
      (buildEntity f idx m).toBottom = true ∧
      (buildEntity f idx m).type = some "typedef" ∧
      (buildEntity f idx m).params = "" ∧
      (buildEntity f idx m).uid = some (formatStringForUID (f ++ "-" ++ tg.string)) ∧
      ((buildLinkableObjects f ((l₁ ++ m :: l₂).filter fun x => !x.ignore)).lookup
          (linkableName tg)).isSome = true := by
  have hent : entryOf f m = some
      (linkableName tg, formatStringForUID (f ++ "-" ++ tg.string)) := by
    simp [entryOf, htag, hty]
  refine ⟨?_, ?_, ?_, ?_, ?_, ?_⟩
  · simp [buildEntity, hctx, htag, hty]
  · simp [buildEntity, hctx, htag, hty]
  · simp [buildEntity, hctx, htag, hty]
  · simp [buildEntity, hctx, htag, hty]
  · simp [buildEntity, hctx, htag, hty]
  · rw [buildLinkable_eq]
    rw [show (l₁ ++ m :: l₂).filter (fun x => !x.ignore) =
        l₁.filter (fun x => !x.ignore) ++ m :: l₂.filter (fun x => !x.ignore) from by
      rw [List.filter_append, List.filter_cons, if_pos hig]]
    rw [List.filterMap_append, List.filterMap_cons, hent]
    rw [List.reverse_append, List.reverse_cons]
    rw [List.append_assoc]
    exact lookup_mem_isSome (linkableName tg) (formatStringForUID (f ++ "-" ++ tg.string)) _ _

/-- C6 witness: the `Options` example record evaluated concretely. -/
theorem c6_witness :
    (buildEntity "lib.js" [] optionsRecord).notFunction = true ∧
      (buildEntity "lib.js" [] optionsRecord).toBottom = true ∧
      (buildEntity "lib.js" [] optionsRecord).type = some "typedef" ∧
      (buildEntity "lib.js" [] optionsRecord).params = "" ∧
      (buildEntity "lib.js" [] optionsRecord).uid =
        some (formatStringForUID ("lib.js" ++ "-" ++ optionsTag.string)) ∧
      ((buildLinkableObjects "lib.js" (([] ++ optionsRecord :: []).filter
          fun x => !x.ignore)).lookup (linkableName optionsTag)).isSome = true :=
  c6_typedef_entity "lib.js" [] optionsRecord optionsTag [] [] rfl rfl rfl rfl

/-- C10: a record marked `ignore` never contributes an index entry — the
parser filters ignored records before the index pass — so a name declared
only by ignored callback/typedef records misses the index and the Link
formatter takes its escaping branch on it. -/
theorem c10_ignored_records_unlinkable (f : String) (ms : List Method) (n : String)
    (h : ∀ m ∈ ms, m.ignore = false → ∀ p, entryOf f m = some p → ¬(p.1 = stripBrackets n)) :
    (buildLinkableObjects f (ms.filter fun x => !x.ignore)).lookup (stripBrackets n) = none ∧
      formatStringWithLinkable n (buildLinkableObjects f (ms.filter fun x => !x.ignore)) =
        escapeString (stripBrackets n) := by
  have hnone : (buildLinkableObjects f (ms.filter fun x => !x.ignore)).lookup
      (stripBrackets n) = none := by
    rw [buildLinkable_eq]
    apply lookup_eq_none_of_keys
    intro p hp
    rw [List.mem_reverse] at hp
    rcases List.mem_filterMap.mp hp with ⟨m, hm, he⟩
    have hig : m.ignore = false := by
      have h2 := (List.mem_filter.mp hm).2
      simpa using h2
    exact h m (List.mem_filter.mp hm).1 hig p he
  refine ⟨hnone, ?_⟩
  simp only [formatStringWithLinkable]
  rw [hnone]

/-- C10 witness: with the `Options` typedef declared only by an ignored
record, the name misses the index and escapes to itself. -/
theorem c10_witness :
    (buildLinkableObjects "lib.js" ([ignoredOptionsRecord].filter
        fun x => !x.ignore)).lookup (stripBrackets "Options") = none ∧
      formatStringWithLinkable "Options" (buildLinkableObjects "lib.js"
        ([ignoredOptionsRecord].filter fun x => !x.ignore)) =
        escapeString (stripBrackets "Options") := by
  have h : ∀ m ∈ [ignoredOptionsRecord], m.ignore = false →
      ∀ p, entryOf "lib.js" m = some p → ¬(p.1 = stripBrackets "Options") := by
    intro m hm hig p hp
    rw [List.mem_singleton] at hm
    subst hm
    exact absurd hig (by decide)
  exact c10_ignored_records_unlinkable "lib.js" [ignoredOptionsRecord] "Options" h

/-- C3 (amended): the Link formatter returns a hyperlink if and only if
the bracket-stripped string maps to a non-empty (truthy) identifier in
the index; otherwise — key absent, or present with an empty identifier —
it returns the escaped literal, in which `<` and `>` never occur and
every `&` immediately starts a numeric character reference. Exactly one
branch applies per string. -/
theorem c3_link_escape_exclusive (content : String) (idx : List (String × String)) :
    (∀ u, idx.lookup (stripBrackets content) = some u → ¬(u = "") →
        formatStringWithLinkable content idx =
          "<a href=\"#" ++ u ++ "\">" ++ stripBrackets content ++ "</a>") ∧
      ((idx.lookup (stripBrackets content) = none ∨
          idx.lookup (stripBrackets content) = some "") →
        formatStringWithLinkable content idx = escapeString (stripBrackets content) ∧
          ¬('<' ∈ (formatStringWithLinkable content idx).toList) ∧
          ¬('>' ∈ (formatStringWithLinkable content idx).toList) ∧
          ampsEscaped (formatStringWithLinkable content idx).toList = true) := by
  constructor
  · intro u hu hne
    simp only [formatStringWithLinkable]
    rw [hu]
    show (if u ≠ "" then "<a href=\"#" ++ u ++ "\">" ++ stripBrackets content ++ "</a>"
        else escapeString (stripBrackets content)) =
      "<a href=\"#" ++ u ++ "\">" ++ stripBrackets content ++ "</a>"
    rw [if_pos hne]
  · intro hcase
    have heq : formatStringWithLinkable content idx = escapeString (stripBrackets content) := by
      simp only [formatStringWithLinkable]
      rcases hcase with hc | hc
      · rw [hc]
      · rw [hc]
        show (if ("" : String) ≠ "" then
            "<a href=\"#" ++ "" ++ "\">" ++ stripBrackets content ++ "</a>"
          else escapeString (stripBrackets content)) = escapeString (stripBrackets content)
        rw [if_neg (by simp)]
    refine ⟨heq, ?_, ?_, ?_⟩
    · rw [heq]
      exact (escape_no_angle (stripBrackets content).toList).1
    · rw [heq]
      exact (escape_no_angle (stripBrackets content).toList).2
    · rw [heq]
      exact ampsEscaped_flatMap (stripBrackets content).toList

/-- C3 witness: a truthy entry links; an absent key escapes with no raw
markup. -/
theorem c3_witness :
    formatStringWithLinkable "X" [("X", "u1")] =
      "<a href=\"#" ++ "u1" ++ "\">" ++ stripBrackets "X" ++ "</a>" ∧
      (formatStringWithLinkable "a&b" [] = escapeString (stripBrackets "a&b") ∧
        ¬('<' ∈ (formatStringWithLinkable "a&b" []).toList) ∧
        ¬('>' ∈ (formatStringWithLinkable "a&b" []).toList) ∧
        ampsEscaped (formatStringWithLinkable "a&b" []).toList = true) :=
  ⟨(c3_link_escape_exclusive "X" [("X", "u1")]).1 "u1" (by decide) (by decide),
    (c3_link_escape_exclusive "a&b" []).2 (Or.inl (by decide))⟩

/-- C9 (amended): when the escaping branch runs, every character of the
class — the range U+00A0 through U+9999 together with `<`, `>`, `&` — is
replaced by a decimal numeric character reference built from the
character code, and every other character with code at most U+9999,
including the non-ASCII characters U+0080 through U+009F, passes through
unchanged; nothing is claimed for characters above U+9999, where the
regex's `i` flag can canonicalize case-paired characters into the class. -/
theorem c9_escape_class_scoped :
    (∀ c : Char, (0xA0 ≤ c.toNat ∧ c.toNat ≤ 0x9999) ∨ c = '<' ∨ c = '>' ∨ c = '&' →
        escapeChar c = '&' :: '#' :: (decDigits c.toNat ++ [';'])) ∧
      (∀ c : Char, c.toNat < 0xA0 → ¬(c = '<') → ¬(c = '>') → ¬(c = '&') →
        escapeChar c = [c]) ∧
      ∀ s : String, (∀ c ∈ s.toList, c.toNat ≤ 0x9999) →
        (escapeString s).toList = s.toList.flatMap fun c =>
          if (0xA0 ≤ c.toNat ∧ c.toNat ≤ 0x9999) ∨ c = '<' ∨ c = '>' ∨ c = '&' then
            '&' :: '#' :: (decDigits c.toNat ++ [';'])
          else [c] := by
  have hin : ∀ c : Char, (0xA0 ≤ c.toNat ∧ c.toNat ≤ 0x9999) ∨ c = '<' ∨ c = '>' ∨ c = '&' →
      escapeChar c = '&' :: '#' :: (decDigits c.toNat ++ [';']) := by
    intro c h
    have hcl : inEscapeClass c = true := (inEscapeClass_iff c).mpr h
    simp [escapeChar, hcl]
  have hout : ∀ c : Char, ¬((0xA0 ≤ c.toNat ∧ c.toNat ≤ 0x9999) ∨ c = '<' ∨ c = '>' ∨ c = '&') →
      escapeChar c = [c] := by
    intro c h
    have hcl : ¬(inEscapeClass c = true) := fun hc => h ((inEscapeClass_iff c).mp hc)
    simp [escapeChar, hcl]
  refine ⟨hin, ?_, ?_⟩
  · intro c hlow h1 h2 h3
    exact hout c (by
      intro hcase
      rcases hcase with ⟨hge, _⟩ | h | h | h
      · omega
      · exact h1 h
      · exact h2 h
      · exact h3 h)
  · intro s hs
    show s.toList.flatMap escapeChar = _
    have haux : ∀ l : List Char, l.flatMap escapeChar = l.flatMap fun c =>
        if (0xA0 ≤ c.toNat ∧ c.toNat ≤ 0x9999) ∨ c = '<' ∨ c = '>' ∨ c = '&' then
          '&' :: '#' :: (decDigits c.toNat ++ [';'])
        else [c] := by
      intro l
      induction l with
      | nil => rfl
      | cons c t ih =>
          rw [List.flatMap_cons, List.flatMap_cons, ih]
          congr 1
          by_cases h : (0xA0 ≤ c.toNat ∧ c.toNat ≤ 0x9999) ∨ c = '<' ∨ c = '>' ∨ c = '&'
          · rw [if_pos h]
            exact hin c h
          · rw [if_neg h]
            exact hout c h
    exact haux s.toList

/-- C9 witness: a class member, an excluded low character, and a short
string below U+9999, evaluated concretely. -/
theorem c9_witness :
    escapeChar '&' = '&' :: '#' :: (decDigits ('&').toNat ++ [';']) ∧
      escapeChar 'a' = ['a'] ∧
      (escapeString "a<b").toList = "a<b".toList.flatMap fun c =>
        if (0xA0 ≤ c.toNat ∧ c.toNat ≤ 0x9999) ∨ c = '<' ∨ c = '>' ∨ c = '&' then
          '&' :: '#' :: (decDigits c.toNat ++ [';'])
        else [c] :=
  ⟨c9_escape_class_scoped.1 '&' (by decide),
    c9_escape_class_scoped.2.1 'a' (by decide) (by decide) (by decide) (by decide),
    c9_escape_class_scoped.2.2 "a<b" (by decide)⟩

/-- C2 (amended): an entity built from a record with a declared name gets
`uid` equal to the slug of `filename ++ "-" ++ name` — the ctx string
when ctx is present, the first-tag string for a callback/typedef record —
where the slug lower-cases, collapses every maximal run of characters
that are neither word characters nor periods into one hyphen (periods
survive), and strips a leading/trailing hyphen; a record with neither a
ctx nor a qualifying first tag gets no uid at all (such records reach the
output only through the slip recorded at C1). On the spec's example
record the uid is therefore `"lib.js-foo"` (not `"lib-js-foo"`), with
type `method`, name `foo`, params `"a"` and `notFunction` false. -/
theorem c2_uid_slug_characterization :
    (∀ (f : String) (idx : List (String × String)) (m : Method) (c : Ctx), m.ctx = some c →
        (buildEntity f idx m).uid = some (formatStringForUID (f ++ "-" ++ c.string))) ∧
      (∀ (f : String) (idx : List (String × String)) (m : Method) (tg : Tag), m.ctx = none →
        m.tags.head? = some tg → (tg.type = "typedef" ∨ tg.type = "callback") →
        (buildEntity f idx m).uid = some (formatStringForUID (f ++ "-" ++ tg.string))) ∧
      (∀ (f : String) (idx : List (String × String)) (m : Method), m.ctx = none →
        isCallbackOrTypedef m = false → (buildEntity f idx m).uid = none) ∧
      (∀ (s : String) (ch : Char), ch ∈ (formatStringForUID s).toList →
        (isWordDot ch = true ∧ Char.toLower ch = ch) ∨ ch = '-') ∧
      (∀ s : String, ¬((formatStringForUID s).toList.head? = some '-')) ∧
      (∀ s : String, ¬((formatStringForUID s).toList.getLast? = some '-')) ∧
      (parser "lib.js" [fooRecord]).map
          (fun e => (e.uid, e.type, e.name, e.params, e.notFunction)) =
        [(some "lib.js-foo", some "method", some "foo", "a", false)] := by
  refine ⟨?_, ?_, ?_, ?_, ?_, ?_, ?_⟩
  · intro f idx m c hc
    simp [buildEntity, hc]
  · intro f idx m tg hctx htag hty
    rcases hty with h | h
    · simp [buildEntity, hctx, htag, h]
    · simp [buildEntity, hctx, htag, h]
  · intro f idx m hctx hnq
    unfold buildEntity
    rw [hctx]
    cases ht : m.tags.head? with
    | none => rfl
    | some t =>
        have h2 : (t.type == "typedef" || t.type == "callback") = false := by
          unfold isCallbackOrTypedef at hnq
          rw [ht] at hnq
          exact hnq
        dsimp only
        rw [if_neg (by rw [h2]; exact Bool.false_ne_true)]
  · exact fun s ch h => uid_chars s ch h
  · intro s hcon
    rcases uid_head s with h | ⟨c, t, heq, hw⟩
    · rw [h] at hcon
      simp at hcon
    · rw [heq] at hcon
      simp at hcon
      rw [hcon] at hw
      exact absurd hw (by decide)
  · intro s hcon
    exact uid_getLast s '-' hcon rfl
  · rw [show parser "lib.js" [fooRecord] =
        List.mergeSort [buildEntity "lib.js" [] fooRecord] sortLe from rfl]
    simp only [List.mergeSort]
    decide

/-- C2 witness: the three uid cases (ctx, typedef first tag, no declared
name) and a character fact, evaluated at concrete inputs. -/
theorem c2_witness :
    (buildEntity "lib.js" [] fooRecord).uid =
      some (formatStringForUID ("lib.js" ++ "-" ++ ({ type := "method", string := "foo" } : Ctx).string)) ∧
      (buildEntity "lib.js" [] optionsRecord).uid =
        some (formatStringForUID ("lib.js" ++ "-" ++ optionsTag.string)) ∧
      (buildEntity "lib.js" [] ctxlessRecord).uid = none ∧
      ((isWordDot 'e' = true ∧ Char.toLower 'e' = 'e') ∨ 'e' = '-') :=
  ⟨c2_uid_slug_characterization.1 "lib.js" [] fooRecord { type := "method", string := "foo" } rfl,
    c2_uid_slug_characterization.2.1 "lib.js" [] optionsRecord optionsTag rfl rfl (Or.inl rfl),
    c2_uid_slug_characterization.2.2.1 "lib.js" [] ctxlessRecord rfl (by decide),
    c2_uid_slug_characterization.2.2.2.1 "Ex!" 'e' (by decide)⟩

/-- C7 (amended): the aggregated params string is computed from the
non-dotted param tags (dropping the dotted tags beforehand changes
nothing, while the param tag group keeps them all), each name
bracket-wrapped when optional, joined with `", "`, with every `"], ["`
boundary collapsed and then only the first `", ["` occurrence converted
to `"[, "`. -/
theorem c7_params_string_behavior :
    (∀ tags : List Tag,
        mkParamsString (tags.filter fun t => !(t.name.toList.contains '.')) =
          mkParamsString tags) ∧
      (∀ (f : String) (idx : List (String × String)) (m : Method),
        (buildEntity f idx m).tagsParam.map (fun p => p.name) =
          (m.tags.filter fun t => t.type == "param").map fun t =>
            formatStringForParam t.name) ∧
      mkParamsString [reqTag "a", optTag "b", optTag "c"] = "a[, b, c]" ∧
      mkParamsString [reqTag "a", reqTag "obj.x"] = "a" :=
  ⟨mkParamsString_ignores_dotted, tagsParam_full_group, by decide, by decide⟩

end Doxdox
